import Mathlib

/-!
Shallow embedding of `src/linter.py` (thesmartcoder7/python-linter).

The repository implements a small Python linter: three visitor-based rules
(`UnusedImportsRule`, `UnusedVariablesRule`, `DuplicateDictKeysRule`) over a
Python `ast` tree, orchestrated by `Linter.lint`, which parses the source,
runs each rule's `check` on the same tree in registration order, concatenates
the diagnostics and stable-sorts them by line number.

The embedding models the `ast` node kinds the rules dispatch on; every other
node kind is represented by the catch-all constructor `Node.other`, which the
visitors traverse with the default `generic_visit` pass-through, exactly as
`ast.NodeVisitor` does for node kinds without a dedicated `visit_*` method.
Traversal order follows `ast.iter_child_nodes` field order.
-/

namespace PyLinter

/-- LintError from `src/linter.py` (`@dataclass class LintError`). -/
structure LintError where
  rule_name : String
  message : String
  line_number : Nat
deriving DecidableEq, Repr

/-- Expression context of an `ast.Name` node (`ast.Load` / `ast.Store` / `ast.Del`). -/
inductive Ctx where
  | load
  | store
  | del
deriving DecidableEq, Repr

/-- Value of an `ast.Constant` node, restricted to the hashable literal kinds
the duplicate-key rule can meet as dict keys: strings, integers, booleans and
`None`. -/
inductive ConstVal where
  | str (s : String)
  | int (n : Int)
  | bool (b : Bool)
  | none
deriving DecidableEq, Repr

/-- Python value-equality normal form for dict keys: Python's `bool` is a
subtype of `int`, so `True == 1` and `False == 0` and they hash alike; the
`defaultdict` in `visit_Dict` therefore groups them together. -/
def ConstVal.norm : ConstVal → ConstVal
  | .bool b => .int (if b then 1 else 0)
  | v => v

/-- Python `==` on the modelled constant values (used by dict-key lookup). -/
def ConstVal.peq (a b : ConstVal) : Bool := a.norm == b.norm

/-- Python `str()` of a constant value, as the `f`-string in `visit_Dict`
renders the repeated key. -/
def ConstVal.pyStr : ConstVal → String
  | .str s => s
  | .int n => toString n
  | .bool b => if b then "True" else "False"
  | .none => "None"

/-- An `ast.alias` as appearing in `Import`/`ImportFrom` statements. -/
structure Alias where
  name : String
  asname : Option String
deriving DecidableEq, Repr

/-- The bound name of an import alias: Python's `alias.asname or alias.name`
(`or` falls through on a falsy value, i.e. `None` or the empty string). -/
def Alias.boundName (a : Alias) : String :=
  match a.asname with
  | some s => if s.isEmpty then a.name else s
  | none => a.name

/-- The formal-parameter lists of an `ast.arguments` node; the linter only
reads the parameter names (defaults and annotations are not modelled, so the
embedding covers functions without them). -/
structure FnArgs where
  posonlyargs : List String
  args : List String
  vararg : Option String
  kwonlyargs : List String
  kwarg : Option String
deriving DecidableEq, Repr

mutual
/-- A Python `ast` node. Constructors cover the node kinds with dedicated
`visit_*` methods in `src/linter.py` plus the containers needed to build
programs; `other` stands for any further node kind, traversed by the default
`generic_visit`. Child order inside each constructor is `ast` field order. -/
inductive Node where
  | module (body : List Node)
  | imp (lineno : Nat) (names : List Alias)
  | impFrom (lineno : Nat) (names : List Alias)
  | functionDef (lineno : Nat) (args : FnArgs) (body : List Node)
  | asyncFunctionDef (lineno : Nat) (args : FnArgs) (body : List Node)
  | classDef (lineno : Nat) (body : List Node)
  | assign (targets : List Node) (value : Node)
  | augAssign (target : Node) (value : Node)
  | exprStmt (value : Node)
  | name (lineno : Nat) (id : String) (ctx : Ctx)
  | const (lineno : Nat) (value : ConstVal)
  | tuple (elts : List Node) (ctx : Ctx)
  | listLit (elts : List Node) (ctx : Ctx)
  | dict (keys : List (Option Node)) (vals : List Node)
  | listComp (elt : Node) (generators : List Comp)
  | setComp (elt : Node) (generators : List Comp)
  | dictComp (key : Node) (value : Node) (generators : List Comp)
  | generatorExp (elt : Node) (generators : List Comp)
  | call (func : Node) (args : List Node)
  | other (children : List Node)

/-- An `ast.comprehension` clause (fields `target`, `iter`, `ifs`). -/
inductive Comp where
  | mk (target : Node) (iter : Node) (ifs : List Node)
end

def Comp.target : Comp → Node
  | .mk t _ _ => t

def Comp.iter : Comp → Node
  | .mk _ i _ => i

def Comp.ifs : Comp → List Node
  | .mk _ _ fs => fs

/-! ### UnusedImportsRule

State of the rule during `visit`: `imports` is the encounter-ordered list of
`(bound name, lineno)` pairs collected by `visit_Import`/`visit_ImportFrom`;
`used` models the `used_imports` set filled by `visit_Name` for load-context
names (a list used only through membership). -/

structure ImpState where
  imports : List (String × Nat)
  used : List String
deriving DecidableEq, Repr

/-- Addition to the `used_imports` set (`set.add`: no effect when present). -/
def ImpState.addUsed (st : ImpState) (nm : String) : ImpState :=
  if st.used.contains nm then st else { st with used := nm :: st.used }

/-- Appending one import binding to `self.imports`. -/
def ImpState.addImport (st : ImpState) (nm : String) (ln : Nat) : ImpState :=
  { st with imports := st.imports ++ [(nm, ln)] }

mutual
/-- The `visit` dispatch of `UnusedImportsRule`: dedicated handlers for
`Import`, `ImportFrom` and `Name`, default `generic_visit` everywhere else. -/
def impVisit (st : ImpState) : Node → ImpState
  | .module body => impVisitList st body
  | .imp ln names => names.foldl (fun s a => s.addImport a.boundName ln) st
  | .impFrom ln names => names.foldl (fun s a => s.addImport a.boundName ln) st
  | .functionDef _ _ body => impVisitList st body
  | .asyncFunctionDef _ _ body => impVisitList st body
  | .classDef _ body => impVisitList st body
  | .assign targets value => impVisit (impVisitList st targets) value
  | .augAssign target value => impVisit (impVisit st target) value
  | .exprStmt value => impVisit st value
  | .name _ id ctx => if ctx = .load then st.addUsed id else st
  | .const _ _ => st
  | .tuple elts _ => impVisitList st elts
  | .listLit elts _ => impVisitList st elts
  | .dict keys vals => impVisitList (impVisitOptList st keys) vals
  | .listComp elt gens => impVisitComps (impVisit st elt) gens
  | .setComp elt gens => impVisitComps (impVisit st elt) gens
  | .dictComp key value gens => impVisitComps (impVisit (impVisit st key) value) gens
  | .generatorExp elt gens => impVisitComps (impVisit st elt) gens
  | .call f args => impVisitList (impVisit st f) args
  | .other children => impVisitList st children

def impVisitList (st : ImpState) : List Node → ImpState
  | [] => st
  | n :: ns => impVisitList (impVisit st n) ns

def impVisitOptList (st : ImpState) : List (Option Node) → ImpState
  | [] => st
  | some n :: ns => impVisitOptList (impVisit st n) ns
  | none :: ns => impVisitOptList st ns

def impVisitComps (st : ImpState) : List Comp → ImpState
  | [] => st
  | .mk t i fs :: cs => impVisitComps (impVisitList (impVisit (impVisit st t) i) fs) cs
end

/-- Diagnostic text of the unused-import rule. -/
def mkImportMsg (nm : String) : String :=
  "Imported name " ++ "'" ++ nm ++ "'" ++ " is unused"

/-- The reporting loop of `UnusedImportsRule.check`: walks `self.imports`
keeping the `imported_names` seen-set, flagging any binding whose name is
absent from `used_imports` (both branches of the seen-set test report). -/
def importsCheckGo (rn : String) (used : List String) :
    List (String × Nat) → List String → List LintError
  | [], _ => []
  | (nm, ln) :: rest, seen =>
    if seen.contains nm then
      (if used.contains nm then [] else [⟨rn, mkImportMsg nm, ln⟩]) ++
        importsCheckGo rn used rest seen
    else
      (if used.contains nm then [] else [⟨rn, mkImportMsg nm, ln⟩]) ++
        importsCheckGo rn used rest (nm :: seen)

/-- `UnusedImportsRule.check`: reset `imports` and `used_imports`, visit the
tree, then run the reporting loop; `self.errors` is overwritten with the
fresh list, so this rule carries no state across calls. -/
def importsCheck (rn : String) (tree : Node) : List LintError :=
  let st := impVisit ⟨[], []⟩ tree
  importsCheckGo rn st.used st.imports []

/-! ### UnusedVariablesRule -/

/-- A representative finite subset of `BUILTIN_NAMES = set(dir(builtins))`.
The runtime set is environment-dependent; every theorem below depends on it
only through membership, never through its exact extent. -/
def BUILTIN_NAMES : List String :=
  ["print", "len", "range", "int", "str", "float", "bool", "list", "dict",
   "set", "tuple", "sum", "min", "max", "abs", "open", "id", "type",
   "isinstance", "enumerate", "zip", "map", "filter", "sorted", "repr",
   "hash", "iter", "next", "getattr", "setattr", "None", "True", "False",
   "Exception", "ValueError", "TypeError"]

/-- One scope: the ordered mapping `name -> (declaration line, used flag)`
(a Python `dict`, so entries keep insertion order and carry unique names). -/
abbrev Scope := List (String × Nat × Bool)

/-- Membership test `name in scope` on the ordered mapping. -/
def scopeHas (nm : String) (s : Scope) : Bool :=
  s.any (fun e => e.1 == nm)

/-- The update `scope[name] = (line, True)` in `visit_Name`: the entry keeps
its position and declaration line, only the used flag flips. -/
def setUsed (nm : String) : Scope → Scope
  | [] => []
  | (k, ln, u) :: rest =>
    if k = nm then (k, ln, true) :: rest else (k, ln, u) :: setUsed nm rest

/-- The loop of `visit_Name` over `reversed(self.scopes)`: the innermost
scope containing the name gets its used flag set and the search stops. The
stack is represented innermost-first. -/
def markUsed (nm : String) : List Scope → List Scope
  | [] => []
  | s :: rest =>
    if scopeHas nm s then setUsed nm s :: rest else s :: markUsed nm rest

/-- Traversal state of `UnusedVariablesRule`: the scope stack
(innermost-first; `current_scope` is its head, `None` when empty) and the
accumulated `self.errors`. -/
structure VState where
  scopes : List Scope
  errors : List LintError
deriving DecidableEq, Repr

/-- Python's `name.startswith('_')`, phrased on the character list so that
it evaluates inside the kernel. -/
def startsWithUnderscore (nm : String) : Bool :=
  match nm.data with
  | [] => false
  | c :: _ => c = '_'

/-- Ignore test of `_record_variable`: leading-underscore names and built-in
names are never declared. -/
def isIgnoredName (nm : String) : Bool :=
  startsWithUnderscore nm || BUILTIN_NAMES.contains nm

/-- `_record_variable`: skip ignored names; otherwise declare the name in the
current innermost scope at the given line, only if not already present there
(first occurrence wins); no-op when the scope stack is empty. -/
def recordVariable (nm : String) (lineno : Nat) (st : VState) : VState :=
  if isIgnoredName nm then st
  else
    match st.scopes with
    | [] => st
    | s :: rest =>
      if scopeHas nm s then st
      else { st with scopes := (s ++ [(nm, lineno, false)]) :: rest }

/-- Diagnostic text of the unused-variable rule. -/
def mkVarMsg (nm : String) : String :=
  "Variable " ++ "'" ++ nm ++ "'" ++ " is unused"

/-- `_enter_scope`: push a fresh empty scope. -/
def enterScope (st : VState) : VState :=
  { st with scopes := [] :: st.scopes }

/-- `_exit_scope`: pop the innermost scope (no-op on an empty stack) and
append, in insertion order, one diagnostic for every binding whose used flag
is still false. -/
def exitScope (rn : String) (st : VState) : VState :=
  match st.scopes with
  | [] => st
  | s :: rest =>
    { scopes := rest,
      errors := st.errors ++
        (s.filter (fun e => !e.2.2)).map (fun e => ⟨rn, mkVarMsg e.1, e.2.1⟩) }

mutual
/-- `_handle_target` of `UnusedVariablesRule` (and the character-identical
`_handle_assignment_target`): record simple names, recurse through tuple and
list destructuring, ignore any other target shape. -/
def handleTarget (st : VState) : Node → VState
  | .name ln id _ => recordVariable id ln st
  | .tuple elts _ => handleTargetList st elts
  | .listLit elts _ => handleTargetList st elts
  | _ => st

def handleTargetList (st : VState) : List Node → VState
  | [] => st
  | n :: ns => handleTargetList (handleTarget st n) ns
end

/-- Recording of an optional parameter (`vararg` / `kwarg`): present means
one `_record_variable` call, absent means none. -/
def recordOpt (nm? : Option String) (ln : Nat) (st : VState) : VState :=
  match nm? with
  | some nm => recordVariable nm ln st
  | none => st

/-- Parameter binding on entering a function scope: every parameter kind is
declared at the function's own line, in the order `visit_FunctionDef` walks
them (posonly, positional, vararg, kwonly, kwarg). -/
def recordParams (ln : Nat) (a : FnArgs) (st : VState) : VState :=
  recordOpt a.kwarg ln
    (a.kwonlyargs.foldl (fun s nm => recordVariable nm ln s)
      (recordOpt a.vararg ln
        (a.args.foldl (fun s nm => recordVariable nm ln s)
          (a.posonlyargs.foldl (fun s nm => recordVariable nm ln s) st))))

/-- The loop of `_handle_comprehension` over `node.generators`, binding every
iteration target before the rest of the construct is visited. -/
def compTargets (st : VState) (gens : List Comp) : VState :=
  gens.foldl (fun s c => handleTarget s c.target) st

mutual
/-- The `visit` dispatch of `UnusedVariablesRule`: dedicated handlers for
function/class definitions, comprehensions, assignments and names; default
`generic_visit` everywhere else. Scope-introducing handlers push a scope,
declare their bindings, traverse children, and pop. -/
def varVisit (rn : String) (st : VState) : Node → VState
  | .module body => varVisitList rn st body
  | .imp _ _ => st
  | .impFrom _ _ => st
  | .functionDef ln args body =>
      exitScope rn (varVisitList rn (recordParams ln args (enterScope st)) body)
  | .asyncFunctionDef ln args body =>
      exitScope rn (varVisitList rn (recordParams ln args (enterScope st)) body)
  | .classDef _ body => exitScope rn (varVisitList rn (enterScope st) body)
  | .assign targets value =>
      varVisit rn (varVisitList rn (handleTargetList st targets) targets) value
  | .augAssign target value =>
      varVisit rn (varVisit rn (handleTarget st target) target) value
  | .exprStmt value => varVisit rn st value
  | .name _ id ctx =>
      if ctx = .load then { st with scopes := markUsed id st.scopes } else st
  | .const _ _ => st
  | .tuple elts _ => varVisitList rn st elts
  | .listLit elts _ => varVisitList rn st elts
  | .dict keys vals => varVisitList rn (varVisitOptList rn st keys) vals
  | .listComp elt gens =>
      exitScope rn (varVisitComps rn (varVisit rn (compTargets (enterScope st) gens) elt) gens)
  | .setComp elt gens =>
      exitScope rn (varVisitComps rn (varVisit rn (compTargets (enterScope st) gens) elt) gens)
  | .dictComp key value gens =>
      exitScope rn (varVisitComps rn
        (varVisit rn (varVisit rn (compTargets (enterScope st) gens) key) value) gens)
  | .generatorExp elt gens =>
      exitScope rn (varVisitComps rn (varVisit rn (compTargets (enterScope st) gens) elt) gens)
  | .call f args => varVisitList rn (varVisit rn st f) args
  | .other children => varVisitList rn st children

def varVisitList (rn : String) (st : VState) : List Node → VState
  | [] => st
  | n :: ns => varVisitList rn (varVisit rn st n) ns

def varVisitOptList (rn : String) (st : VState) : List (Option Node) → VState
  | [] => st
  | some n :: ns => varVisitOptList rn (varVisit rn st n) ns
  | none :: ns => varVisitOptList rn st ns

def varVisitComps (rn : String) (st : VState) : List Comp → VState
  | [] => st
  | .mk t i fs :: cs =>
      varVisitComps rn (varVisitList rn (varVisit rn (varVisit rn st t) i) fs) cs
end

/-- `UnusedVariablesRule.check`: reset the scope stack, push the module
scope, visit, pop it. `self.errors` is NOT reset, so diagnostics from an
earlier call survive into the returned list; `errs0` is the instance's
error list as the call begins. -/
def varCheck (rn : String) (errs0 : List LintError) (tree : Node) : List LintError :=
  (exitScope rn (varVisit rn (enterScope ⟨[], errs0⟩) tree)).errors

/-! ### DuplicateDictKeysRule -/

/-- The `seen` table of `visit_Dict`: a `defaultdict(list)` keyed by constant
key value, in first-occurrence order. Each group keeps the key object first
inserted (Python dicts retain the original key on equal-key updates) and the
encounter-ordered lines of all its occurrences. -/
abbrev KeyGroups := List (ConstVal × List Nat)

/-- One step `seen[key.value].append(metadata)`: the line joins the group of
the first Python-equal key if one exists, else a new group is appended. -/
def groupAdd (k : ConstVal) (ln : Nat) : KeyGroups → KeyGroups
  | [] => [(k, [ln])]
  | (g, ls) :: rest =>
    if g.peq k then (g, ls ++ [ln]) :: rest else (g, ls) :: groupAdd k ln rest

/-- Diagnostic text of the duplicate-key rule: the repeated key rendered by
`str()` and the comma-joined encounter-ordered line numbers. -/
def mkDupMsg (k : ConstVal) (lines : List Nat) : String :=
  "Key \"" ++ k.pyStr ++ "\" has been repeated on lines " ++
    String.intercalate ", " (lines.map toString)

/-- The reporting loop after `visit_Dict`'s entry scan: one diagnostic per
group with at least two occurrences, in first-occurrence order, located at
the first occurrence's line. -/
def groupErrors (rn : String) (gs : KeyGroups) : List LintError :=
  (gs.filter (fun g => 1 < g.2.length)).map
    (fun g => ⟨rn, mkDupMsg g.1 g.2, g.2.headD 0⟩)

/-- The `isinstance(value, ast.Dict)` test in `visit_Dict`. -/
def Node.isDict : Node → Bool
  | .dict _ _ => true
  | _ => false

mutual
/-- The `visit` dispatch of `DuplicateDictKeysRule`: only `visit_Dict` is
overridden; every other node kind is traversed by the default
`generic_visit`. -/
def dupVisit (rn : String) (errs : List LintError) : Node → List LintError
  | .module body => dupVisitList rn errs body
  | .imp _ _ => errs
  | .impFrom _ _ => errs
  | .functionDef _ _ body => dupVisitList rn errs body
  | .asyncFunctionDef _ _ body => dupVisitList rn errs body
  | .classDef _ body => dupVisitList rn errs body
  | .assign targets value => dupVisit rn (dupVisitList rn errs targets) value
  | .augAssign target value => dupVisit rn (dupVisit rn errs target) value
  | .exprStmt value => dupVisit rn errs value
  | .name _ _ _ => errs
  | .const _ _ => errs
  | .tuple elts _ => dupVisitList rn errs elts
  | .listLit elts _ => dupVisitList rn errs elts
  | .dict keys vals =>
      (dupLoop rn errs [] keys vals).1 ++ groupErrors rn (dupLoop rn errs [] keys vals).2
  | .listComp elt gens => dupVisitComps rn (dupVisit rn errs elt) gens
  | .setComp elt gens => dupVisitComps rn (dupVisit rn errs elt) gens
  | .dictComp key value gens =>
      dupVisitComps rn (dupVisit rn (dupVisit rn errs key) value) gens
  | .generatorExp elt gens => dupVisitComps rn (dupVisit rn errs elt) gens
  | .call f args => dupVisitList rn (dupVisit rn errs f) args
  | .other children => dupVisitList rn errs children

/-- The entry scan of `visit_Dict` over `zip(node.keys, node.values)`:
constant keys feed the `seen` groups; a value that is itself a dict literal
is visited immediately — `self.visit(value)` dispatches back to `visit_Dict`,
i.e. the `.dict` case of `dupVisit` — so the inner literal's diagnostics
(its scan plus its own groups) land before the outer literal's own; any
other key or value shape is skipped. `visit_Dict` itself is the `.dict` case
of `dupVisit`: one scan of the entries followed by this literal's group
diagnostics, with no `generic_visit`, so no other child is traversed. -/
def dupLoop (rn : String) (errs : List LintError) (seen : KeyGroups) :
    List (Option Node) → List Node → List LintError × KeyGroups
  | [], _ => (errs, seen)
  | _ :: _, [] => (errs, seen)
  | k? :: ks, v :: vs =>
    let seen2 := match k? with
      | some (.const ln cv) => groupAdd cv ln seen
      | _ => seen
    let errs2 := if v.isDict then dupVisit rn errs v else errs
    dupLoop rn errs2 seen2 ks vs
termination_by structural _ vals => vals

def dupVisitList (rn : String) (errs : List LintError) : List Node → List LintError
  | [] => errs
  | n :: ns => dupVisitList rn (dupVisit rn errs n) ns

def dupVisitComps (rn : String) (errs : List LintError) : List Comp → List LintError
  | [] => errs
  | .mk t i fs :: cs =>
      dupVisitComps rn (dupVisitList rn (dupVisit rn (dupVisit rn errs t) i) fs) cs
end

/-- `DuplicateDictKeysRule.check`: visit the tree and return `self.errors`;
nothing is reset, so `errs0`, the instance's error list as the call begins,
stays in front of this call's findings. -/
def dupCheck (rn : String) (errs0 : List LintError) (tree : Node) : List LintError :=
  dupVisit rn errs0 tree

/-! ### Linter orchestrator -/

/-- The persistent, call-surviving state of a `Linter`'s rule instances:
`UnusedImportsRule.check` overwrites its `errors`, but the other two rules
only append, so their error lists carry across `lint` calls. -/
structure LinterState where
  varErrors : List LintError
  dupErrors : List LintError
deriving DecidableEq, Repr

/-- A freshly constructed `Linter()`: every rule starts with empty
`errors`. -/
def Linter.init : LinterState := ⟨[], []⟩

/-- Insertion step of the stable ascending sort by `line_number`: an element
goes in front of the first element with line number greater than or equal to
its own, hence after every earlier-listed element with the same line. -/
def ordInsert (e : LintError) : List LintError → List LintError
  | [] => [e]
  | b :: l =>
    if e.line_number ≤ b.line_number then e :: b :: l else b :: ordInsert e l

/-- Python's `sorted(errors, key=lambda e: e.line_number)` is the stable
ascending sort by line number; stable sorts for a fixed key agree on every
input, so this insertion sort computes exactly its result. -/
def sortByLine : List LintError → List LintError
  | [] => []
  | x :: xs => ordInsert x (sortByLine xs)

/-- The concatenation `Linter.lint` builds before sorting: each rule's
`check` output in registration order (imports, variables, duplicate keys),
the latter two starting from their instances' surviving error lists. -/
def lintCollect (st : LinterState) (tree : Node) : List LintError :=
  importsCheck "unused_import" tree ++
    varCheck "unused_variable" st.varErrors tree ++
    dupCheck "duplicate_dict_keys" st.dupErrors tree

/-- `Linter.lint(source_code)`: `ast.parse` may fail, and the failure
propagates unhandled (there is no `try` in `lint`), before any rule runs;
on success each rule's `check` runs on the same tree in registration order,
the results are concatenated and stable-sorted by line number. The returned
`LinterState` is the rule instances' error state after the call. -/
def Linter.lint (st : LinterState) (parsed : Except String Node) :
    Except String (List LintError) × LinterState :=
  match parsed with
  | .error e => (.error e, st)
  | .ok tree =>
    let errsV := varCheck "unused_variable" st.varErrors tree
    let errsD := dupCheck "duplicate_dict_keys" st.dupErrors tree
    (.ok (sortByLine (importsCheck "unused_import" tree ++ errsV ++ errsD)),
      ⟨errsV, errsD⟩)

/-! ### Auxiliary definitions used by the verification statements -/

/-- Lookup in the ordered mapping of a scope (`scope[name]`). -/
def scopeLookup (nm : String) : Scope → Option (Nat × Bool)
  | [] => none
  | (k, ln, u) :: rest => if k = nm then some (ln, u) else scopeLookup nm rest

/-- Whether a string contains a dot, as the dotted module path of an
un-aliased `import a.b` does; phrased on the character list so that it
evaluates inside the kernel. -/
def hasDot (nm : String) : Bool :=
  nm.data.contains '.'

mutual
/-- Conjunction of a predicate over the `id` of every `Name` node in a tree,
any context; a parser-produced tree satisfies `namesOk (fun s => !hasDot s)`
because Python identifiers cannot contain dots. -/
def namesOk (P : String → Bool) : Node → Bool
  | .module body => namesOkList P body
  | .imp _ _ => true
  | .impFrom _ _ => true
  | .functionDef _ _ body => namesOkList P body
  | .asyncFunctionDef _ _ body => namesOkList P body
  | .classDef _ body => namesOkList P body
  | .assign targets value => namesOkList P targets && namesOk P value
  | .augAssign target value => namesOk P target && namesOk P value
  | .exprStmt value => namesOk P value
  | .name _ id _ => P id
  | .const _ _ => true
  | .tuple elts _ => namesOkList P elts
  | .listLit elts _ => namesOkList P elts
  | .dict keys vals => namesOkOptList P keys && namesOkList P vals
  | .listComp elt gens => namesOk P elt && namesOkComps P gens
  | .setComp elt gens => namesOk P elt && namesOkComps P gens
  | .dictComp key value gens => namesOk P key && namesOk P value && namesOkComps P gens
  | .generatorExp elt gens => namesOk P elt && namesOkComps P gens
  | .call f args => namesOk P f && namesOkList P args
  | .other children => namesOkList P children

def namesOkList (P : String → Bool) : List Node → Bool
  | [] => true
  | n :: ns => namesOk P n && namesOkList P ns

def namesOkOptList (P : String → Bool) : List (Option Node) → Bool
  | [] => true
  | some n :: ns => namesOk P n && namesOkOptList P ns
  | none :: ns => namesOkOptList P ns

def namesOkComps (P : String → Bool) : List Comp → Bool
  | [] => true
  | .mk t i fs :: cs => namesOk P t && namesOk P i && namesOkList P fs && namesOkComps P cs
end

/-- The constant-key entries of one dict literal, in encounter order: the
zipped `(key, value)` pairs restricted to `ast.Constant` keys, each giving
its key value and line. Computed keys contribute nothing. -/
def constEntries : List (Option Node) → List Node → List (ConstVal × Nat)
  | [], _ => []
  | _ :: _, [] => []
  | k? :: ks, _ :: vs =>
    match k? with
    | some (.const ln cv) => (cv, ln) :: constEntries ks vs
    | _ => constEntries ks vs

/-- Encounter-ordered lines of every directly written constant key of the
literal that is Python-equal to `k`. -/
def constKeyLines (k : ConstVal) (keys : List (Option Node)) (vals : List Node) : List Nat :=
  ((constEntries keys vals).filter (fun e => e.1.peq k)).map (fun e => e.2)

/-- The key value of the first directly written constant key Python-equal to
`k` — the key object the `seen` dict retains for the group. -/
def firstConstKeyVal (k : ConstVal) (keys : List (Option Node)) (vals : List Node) :
    Option ConstVal :=
  ((constEntries keys vals).find? (fun e => e.1.peq k)).map (fun e => e.1)

/-- First group of the `seen` table whose key is Python-equal to `k`. -/
def findGroup (k : ConstVal) (gs : KeyGroups) : Option (ConstVal × List Nat) :=
  gs.find? (fun g => g.1.peq k)

/-- Invariant preserved by the variables rule's traversal: every binding in
every scope has a non-ignored name, and every accumulated diagnostic names a
non-ignored variable in the rule's message shape. -/
def goodVState (rn : String) (st : VState) : Prop :=
  (∀ s ∈ st.scopes, ∀ e ∈ s, isIgnoredName e.1 = false) ∧
  (∀ e ∈ st.errors, ∃ nm ln, isIgnoredName nm = false ∧
    e = (⟨rn, mkVarMsg nm, ln⟩ : LintError))

/-! ### Concrete programs used as witnesses and counterexamples -/

/-- The source `x = 1`: a module-level assignment never read. -/
def progAssignX : Node :=
  .module [.assign [.name 1 "x" .store] (.const 1 (.int 1))]

/-- Keys of a dict literal repeating the constant key `2` on lines 2
and 3. -/
def innerDictKeys : List (Option Node) :=
  [some (.const 2 (.int 2)), some (.const 3 (.int 2))]

/-- Values paired with `innerDictKeys`. -/
def innerDictVals : List Node :=
  [.const 2 (.int 0), .const 3 (.int 0)]

/-- The source `{1: [{2: 0, 2: 1}]}` (inner duplicate spread over lines 2
and 3): a dict literal whose inner dict literal sits inside a list value. -/
def progNestedDictInList : Node :=
  .module [.exprStmt (.dict
    [some (.const 1 (.int 1))]
    [.listLit [.dict innerDictKeys innerDictVals] .load])]

/-- The source `import _foo`: an import binding an ignore-marker name, never
used. -/
def progImportUnderscore : Node :=
  .module [.imp 1 [⟨"_foo", none⟩]]

/-- The source `import a.b` followed by the attribute access `a.b` (an
`ast.Attribute` over the load of `a`, modelled as an opaque node wrapping
it). -/
def progDottedImport : Node :=
  .module [.imp 1 [⟨"a.b", none⟩], .exprStmt (.other [.name 2 "a" .load])]

/-! ## Theorems -/

/-- The reporting loop of `UnusedImportsRule.check` flags every import
occurrence whose bound name is not in the used set, regardless of the
`imported_names` seen-set: both branches of its test emit the same
diagnostic, so the loop is a plain filter-and-map over the occurrences. -/
theorem importsCheckGo_eq (rn : String) (used : List String) :
    ∀ (imps : List (String × Nat)) (seen : List String),
      importsCheckGo rn used imps seen =
        (imps.filter (fun p => !used.contains p.1)).map
          (fun p => (⟨rn, mkImportMsg p.1, p.2⟩ : LintError)) := by
  intro imps
  induction imps with
  | nil => intro seen; simp [importsCheckGo]
  | cons hd tl ih =>
    intro seen
    obtain ⟨nm, ln⟩ := hd
    by_cases hused : nm ∈ used <;>
      simp [importsCheckGo, hused, ih, List.filter_cons]

/-- C6: for each recorded import binding whose bound name is absent from the
flat, scope-insensitive used-name set, exactly one diagnostic
`Imported name '<name>' is unused` is emitted at that import's line;
repeated imports of the same name are checked independently, each occurrence
flagged on its own with no cross-occurrence deduplication. -/
theorem imports_check_flags_each_unused_occurrence (rn : String) (tree : Node) :
    importsCheck rn tree =
      ((impVisit ⟨[], []⟩ tree).imports.filter
        (fun p => !(impVisit ⟨[], []⟩ tree).used.contains p.1)).map
        (fun p => (⟨rn, mkImportMsg p.1, p.2⟩ : LintError)) := by
  simp only [importsCheck]
  exact importsCheckGo_eq rn _ _ []

/-- C10: a parse failure propagates unrecovered out of `Linter.lint`, with
no partial diagnostics and the rule instances untouched, while a parse
success always yields a full diagnostic list. -/
theorem lint_parse_failure_is_fatal :
    (∀ (st : LinterState) (e : String), Linter.lint st (.error e) = (.error e, st)) ∧
    (∀ (st : LinterState) (tree : Node), ∃ out, (Linter.lint st (.ok tree)).1 = .ok out) :=
  ⟨fun _ _ => rfl, fun st tree =>
    ⟨sortByLine (importsCheck "unused_import" tree ++
        varCheck "unused_variable" st.varErrors tree ++
        dupCheck "duplicate_dict_keys" st.dupErrors tree), rfl⟩⟩

/-- C1: linting the same source twice on one `Linter` instance does not
return identical diagnostic sequences — `UnusedVariablesRule.check` and
`DuplicateDictKeysRule.check` never reset `self.errors`, so the second call
returns the first call's diagnostic again, in front of its own. On the
source `x = 1` the first call yields one unused-variable diagnostic and the
second call yields it twice. -/
theorem lint_not_idempotent_across_calls :
    (Linter.lint Linter.init (.ok progAssignX)).1 =
      .ok [⟨"unused_variable", mkVarMsg "x", 1⟩] ∧
    (Linter.lint (Linter.lint Linter.init (.ok progAssignX)).2 (.ok progAssignX)).1 =
      .ok [⟨"unused_variable", mkVarMsg "x", 1⟩, ⟨"unused_variable", mkVarMsg "x", 1⟩] ∧
    (Linter.lint (Linter.lint Linter.init (.ok progAssignX)).2 (.ok progAssignX)).1 ≠
      (Linter.lint Linter.init (.ok progAssignX)).1 := by
  refine ⟨rfl, rfl, ?_⟩
  intro h
  rw [show (Linter.lint (Linter.lint Linter.init (.ok progAssignX)).2 (.ok progAssignX)).1 =
      .ok [⟨"unused_variable", mkVarMsg "x", 1⟩, ⟨"unused_variable", mkVarMsg "x", 1⟩] from rfl,
    show (Linter.lint Linter.init (.ok progAssignX)).1 =
      .ok [⟨"unused_variable", mkVarMsg "x", 1⟩] from rfl] at h
  exact absurd (Except.ok.inj h) (by decide)

/-- Recording import bindings leaves the used-name set untouched. -/
theorem foldl_addImport_used (names : List Alias) (ln : Nat) (st : ImpState) :
    (names.foldl (fun s a => s.addImport a.boundName ln) st).used = st.used := by
  induction names generalizing st with
  | nil => rfl
  | cons a as ih => simpa [ImpState.addImport] using ih (st.addImport a.boundName ln)

mutual
/-- Every name in the used set after the imports visitor runs satisfies any
predicate that held of the initial used set and of every `Name` id in the
tree: the set only ever receives `Name` ids read in load context. -/
theorem impVisit_used_ok (P : String → Bool) (st : ImpState) (n : Node)
    (hst : ∀ x ∈ st.used, P x = true) (hn : namesOk P n = true) :
    ∀ x ∈ (impVisit st n).used, P x = true := by
  cases n with
  | module body => exact impVisitList_used_ok P st body hst hn
  | imp ln names =>
      intro x hx
      rw [show impVisit st (.imp ln names) =
        names.foldl (fun s a => s.addImport a.boundName ln) st from rfl,
        foldl_addImport_used] at hx
      exact hst x hx
  | impFrom ln names =>
      intro x hx
      rw [show impVisit st (.impFrom ln names) =
        names.foldl (fun s a => s.addImport a.boundName ln) st from rfl,
        foldl_addImport_used] at hx
      exact hst x hx
  | functionDef ln args body => exact impVisitList_used_ok P st body hst hn
  | asyncFunctionDef ln args body => exact impVisitList_used_ok P st body hst hn
  | classDef ln body => exact impVisitList_used_ok P st body hst hn
  | assign targets value =>
      simp only [namesOk, Bool.and_eq_true] at hn
      exact impVisit_used_ok P _ value
        (impVisitList_used_ok P st targets hst hn.1) hn.2
  | augAssign target value =>
      simp only [namesOk, Bool.and_eq_true] at hn
      exact impVisit_used_ok P _ value (impVisit_used_ok P st target hst hn.1) hn.2
  | exprStmt value => exact impVisit_used_ok P st value hst hn
  | name ln id ctx =>
      have hn' : P id = true := hn
      cases ctx with
      | load =>
          intro x hx
          by_cases hc : id ∈ st.used
          · exact hst x (by simpa [impVisit, ImpState.addUsed, hc] using hx)
          · have hx' : x ∈ id :: st.used := by
              simpa [impVisit, ImpState.addUsed, hc] using hx
            rcases List.mem_cons.mp hx' with rfl | hmem
            · exact hn'
            · exact hst x hmem
      | store => intro x hx; exact hst x (by simpa [impVisit] using hx)
      | del => intro x hx; exact hst x (by simpa [impVisit] using hx)
  | const ln v => exact hst
  | tuple elts ctx => exact impVisitList_used_ok P st elts hst hn
  | listLit elts ctx => exact impVisitList_used_ok P st elts hst hn
  | dict keys vals =>
      simp only [namesOk, Bool.and_eq_true] at hn
      exact impVisitList_used_ok P _ vals
        (impVisitOptList_used_ok P st keys hst hn.1) hn.2
  | listComp elt gens =>
      simp only [namesOk, Bool.and_eq_true] at hn
      exact impVisitComps_used_ok P _ gens (impVisit_used_ok P st elt hst hn.1) hn.2
  | setComp elt gens =>
      simp only [namesOk, Bool.and_eq_true] at hn
      exact impVisitComps_used_ok P _ gens (impVisit_used_ok P st elt hst hn.1) hn.2
  | dictComp key value gens =>
      simp only [namesOk, Bool.and_eq_true] at hn
      exact impVisitComps_used_ok P _ gens
        (impVisit_used_ok P _ value (impVisit_used_ok P st key hst hn.1.1) hn.1.2) hn.2
  | generatorExp elt gens =>
      simp only [namesOk, Bool.and_eq_true] at hn
      exact impVisitComps_used_ok P _ gens (impVisit_used_ok P st elt hst hn.1) hn.2
  | call f args =>
      simp only [namesOk, Bool.and_eq_true] at hn
      exact impVisitList_used_ok P _ args (impVisit_used_ok P st f hst hn.1) hn.2
  | other children => exact impVisitList_used_ok P st children hst hn

theorem impVisitList_used_ok (P : String → Bool) (st : ImpState) (ns : List Node)
    (hst : ∀ x ∈ st.used, P x = true) (hn : namesOkList P ns = true) :
    ∀ x ∈ (impVisitList st ns).used, P x = true := by
  cases ns with
  | nil => exact hst
  | cons n rest =>
      simp only [namesOkList, Bool.and_eq_true] at hn
      exact impVisitList_used_ok P _ rest (impVisit_used_ok P st n hst hn.1) hn.2

theorem impVisitOptList_used_ok (P : String → Bool) (st : ImpState)
    (ns : List (Option Node))
    (hst : ∀ x ∈ st.used, P x = true) (hn : namesOkOptList P ns = true) :
    ∀ x ∈ (impVisitOptList st ns).used, P x = true := by
  cases ns with
  | nil => exact hst
  | cons n? rest =>
      cases n? with
      | some n =>
          simp only [namesOkOptList, Bool.and_eq_true] at hn
          exact impVisitOptList_used_ok P _ rest (impVisit_used_ok P st n hst hn.1) hn.2
      | none => exact impVisitOptList_used_ok P st rest hst hn

theorem impVisitComps_used_ok (P : String → Bool) (st : ImpState) (cs : List Comp)
    (hst : ∀ x ∈ st.used, P x = true) (hn : namesOkComps P cs = true) :
    ∀ x ∈ (impVisitComps st cs).used, P x = true := by
  cases cs with
  | nil => exact hst
  | cons c rest =>
      obtain ⟨t, i, fs⟩ := c
      simp only [namesOkComps, Bool.and_eq_true] at hn
      exact impVisitComps_used_ok P _ rest
        (impVisitList_used_ok P _ fs
          (impVisit_used_ok P _ i (impVisit_used_ok P st t hst hn.1.1.1) hn.1.1.2)
          hn.1.2) hn.2
end

/-- C4: an un-aliased import of a dotted module path records the full dotted
string as the bound name; the used-name set only ever holds `Name` ids,
which in a parser-produced tree contain no dot, so such an import is
reported unused on every input — even when the module is later used through
attribute access. -/
theorem dotted_import_always_flagged (rn : String) (tree : Node) (nm : String) (ln : Nat)
    (hids : namesOk (fun s => !hasDot s) tree = true)
    (hrec : (nm, ln) ∈ (impVisit ⟨[], []⟩ tree).imports)
    (hdot : hasDot nm = true) :
    (⟨rn, mkImportMsg nm, ln⟩ : LintError) ∈ importsCheck rn tree := by
  have hused : ∀ x ∈ (impVisit ⟨[], []⟩ tree).used, (!hasDot x) = true :=
    impVisit_used_ok (fun s => !hasDot s) ⟨[], []⟩ tree (by intro x hx; cases hx) hids
  have hnm : nm ∉ (impVisit ⟨[], []⟩ tree).used := by
    intro hmem
    have := hused nm hmem
    rw [hdot] at this
    exact Bool.false_ne_true this
  simp only [importsCheck]
  rw [importsCheckGo_eq]
  refine List.mem_map.mpr ⟨(nm, ln), List.mem_filter.mpr ⟨hrec, ?_⟩, rfl⟩
  simp [hnm]

/-- Witness for C4 at the program `import a.b` followed by a use of `a.b`
through attribute access: the import is still flagged. -/
theorem dotted_import_always_flagged_witness :
    (⟨"unused_import", mkImportMsg "a.b", 1⟩ : LintError) ∈
      importsCheck "unused_import" progDottedImport :=
  dotted_import_always_flagged "unused_import" progDottedImport "a.b" 1
    (by decide) (by decide) (by decide)

/-- The message of the unused-variable diagnostic determines the variable
name: the fixed prefix and suffix cancel. -/
theorem mkVarMsg_inj {a b : String} (h : mkVarMsg a = mkVarMsg b) : a = b := by
  unfold mkVarMsg at h
  have hd : ("Variable " ++ "'").data ++ (a.data ++ "' is unused".data) =
      ("Variable " ++ "'").data ++ (b.data ++ "' is unused".data) := by
    have := congrArg String.data h
    simpa [String.data_append, List.append_assoc] using this
  have h2 := List.append_cancel_left hd
  have h3 := List.append_cancel_right h2
  exact String.ext h3

/-- The scan of `visit_Name` through `reversed(self.scopes)` walks past every
scope not containing the name and rewrites the first one that does, leaving
all outer scopes untouched. -/
theorem markUsed_append (nm : String) (pre : List Scope) (s : Scope) (post : List Scope)
    (hpre : ∀ t ∈ pre, scopeHas nm t = false) (hs : scopeHas nm s = true) :
    markUsed nm (pre ++ s :: post) = pre ++ setUsed nm s :: post := by
  induction pre with
  | nil => simp [markUsed, hs]
  | cons t pre' ih =>
      have ht : scopeHas nm t = false := hpre t (List.mem_cons_self t pre')
      simp [markUsed, ht, ih (fun u hu => hpre u (List.mem_cons_of_mem t hu))]

/-- `scope[name] = (line, True)` keeps the declaration line and position of
the named binding, only flipping its used flag. -/
theorem scopeLookup_setUsed_self (nm : String) (s : Scope) :
    scopeLookup nm (setUsed nm s) = (scopeLookup nm s).map (fun p => (p.1, true)) := by
  induction s with
  | nil => rfl
  | cons e rest ih =>
      obtain ⟨k, ln, u⟩ := e
      by_cases hk : k = nm <;> simp [setUsed, scopeLookup, hk, ih]

/-- `scope[name] = (line, True)` leaves every other binding of the scope
unchanged. -/
theorem scopeLookup_setUsed_other (nm k : String) (s : Scope) (h : k ≠ nm) :
    scopeLookup k (setUsed nm s) = scopeLookup k s := by
  induction s with
  | nil => rfl
  | cons e rest ih =>
      obtain ⟨k', ln, u⟩ := e
      by_cases hk' : k' = nm
      · subst hk'
        simp [setUsed, scopeLookup, Ne.symm h, ih]
      · by_cases hkk : k' = k <;> simp [setUsed, scopeLookup, hk', hkk, h, ih]

/-- C5: a read-context identifier reference searches the scope stack
innermost-to-outermost and sets the used flag in the first scope containing
the name only: scopes inside the match are walked past unchanged, the
matching scope has exactly that binding's flag set (line and position kept),
and every outer scope — including any shadowed outer binding of the same
name — is left untouched, so an otherwise-unread outer binding is still
reported unused at scope exit. -/
theorem read_marks_innermost_binding_only (nm : String) (pre : List Scope) (s : Scope)
    (post : List Scope)
    (hpre : ∀ t ∈ pre, scopeHas nm t = false) (hs : scopeHas nm s = true) :
    markUsed nm (pre ++ s :: post) = pre ++ setUsed nm s :: post ∧
    scopeLookup nm (setUsed nm s) = (scopeLookup nm s).map (fun p => (p.1, true)) ∧
    (∀ k, k ≠ nm → scopeLookup k (setUsed nm s) = scopeLookup k s) :=
  ⟨markUsed_append nm pre s post hpre hs,
   scopeLookup_setUsed_self nm s,
   fun k hk => scopeLookup_setUsed_other nm k s hk⟩

/-- Witness for C5: reading `x` with an inner scope binding `x` at line 2
and an outer scope binding `x` at line 3 marks only the inner binding. -/
theorem read_marks_innermost_binding_only_witness :
    markUsed "x" ([[("y", 1, false)]] ++ [("x", 2, false)] :: [[("x", 3, false)]]) =
      [[("y", 1, false)]] ++ setUsed "x" [("x", 2, false)] :: [[("x", 3, false)]] ∧
    scopeLookup "x" (setUsed "x" [("x", 2, false)]) =
      (scopeLookup "x" [("x", 2, false)]).map (fun p => (p.1, true)) ∧
    (∀ k, k ≠ "x" → scopeLookup k (setUsed "x" [("x", 2, false)]) =
      scopeLookup k [("x", 2, false)]) :=
  read_marks_innermost_binding_only "x" [[("y", 1, false)]] [("x", 2, false)]
    [[("x", 3, false)]] (by decide) (by decide)

/-- In the diagnostics flushed from one popped scope, a binding left unused
appears exactly once, and a used binding not at all, provided the scope's
names are distinct (as they are in a Python dict). -/
theorem flushed_count (rn nm : String) (ln : Nat) :
    ∀ s : Scope, (nm, ln, false) ∈ s → (s.map Prod.fst).Nodup →
      ((s.filter (fun e => !e.2.2)).map
        (fun e => (⟨rn, mkVarMsg e.1, e.2.1⟩ : LintError))).count ⟨rn, mkVarMsg nm, ln⟩ = 1 := by
  have zero : ∀ s : Scope, (∀ e ∈ s, e.1 ≠ nm) →
      ((s.filter (fun e => !e.2.2)).map
        (fun e => (⟨rn, mkVarMsg e.1, e.2.1⟩ : LintError))).count ⟨rn, mkVarMsg nm, ln⟩ = 0 := by
    intro s
    induction s with
    | nil => intro _; rfl
    | cons e rest ih =>
        intro hne
        have he : e.1 ≠ nm := hne e (List.mem_cons_self e rest)
        have hmsg : (⟨rn, mkVarMsg e.1, e.2.1⟩ : LintError) ≠ ⟨rn, mkVarMsg nm, ln⟩ := by
          intro hcontr
          exact he (mkVarMsg_inj (congrArg LintError.message hcontr))
        by_cases hu : e.2.2 <;>
          simp [List.filter_cons, hu, List.count_cons, hmsg,
            ih (fun x hx => hne x (List.mem_cons_of_mem e hx))]
  intro s
  induction s with
  | nil => intro h; cases h
  | cons e rest ih =>
      intro hmem hnd
      have hnd' : (rest.map Prod.fst).Nodup := (List.nodup_cons.mp (by simpa using hnd)).2
      rcases List.mem_cons.mp hmem with heq | hmem'
      · have hnotin : e.1 ∉ rest.map Prod.fst := (List.nodup_cons.mp (by simpa using hnd)).1
        have hrest : ∀ x ∈ rest, x.1 ≠ nm := by
          intro x hx hx1
          rw [← heq] at hnotin
          exact hnotin (by simpa [hx1] using List.mem_map_of_mem Prod.fst hx)
        rw [← heq]
        simp [List.filter_cons, List.count_cons, zero rest hrest]
      · have hkey : nm ∈ rest.map Prod.fst := by
          simpa using List.mem_map_of_mem Prod.fst hmem'
        have hne : e.1 ≠ nm := by
          intro h1
          exact (List.nodup_cons.mp (by simpa using hnd)).1 (h1 ▸ hkey)
        have hmsg : (⟨rn, mkVarMsg e.1, e.2.1⟩ : LintError) ≠ ⟨rn, mkVarMsg nm, ln⟩ := by
          intro hcontr
          exact hne (mkVarMsg_inj (congrArg LintError.message hcontr))
        by_cases hu : e.2.2 <;>
          simp [List.filter_cons, hu, List.count_cons, hmsg, ih hmem' hnd']

/-- C7: popping a scope removes it from the stack and appends, in insertion
order, one `Variable '<name>' is unused` diagnostic at the declaration line
of every binding whose used flag is still false; each such binding is
reported exactly once, a used binding never; popping an empty stack is a
no-op, and the popped scope is a value never referenced again. -/
theorem scope_pop_flushes_unused (rn : String) (s : Scope) (rest : List Scope)
    (errs : List LintError) (hnd : (s.map Prod.fst).Nodup) :
    exitScope rn ⟨s :: rest, errs⟩ =
      ⟨rest, errs ++ (s.filter (fun e => !e.2.2)).map
        (fun e => ⟨rn, mkVarMsg e.1, e.2.1⟩)⟩ ∧
    exitScope rn ⟨[], errs⟩ = ⟨[], errs⟩ ∧
    (∀ nm ln, (nm, ln, false) ∈ s →
      ((s.filter (fun e => !e.2.2)).map
        (fun e => (⟨rn, mkVarMsg e.1, e.2.1⟩ : LintError))).count ⟨rn, mkVarMsg nm, ln⟩ = 1) :=
  ⟨rfl, rfl, fun nm ln hmem => flushed_count rn nm ln s hmem hnd⟩

/-- Witness for C7 on the scope `{x: (3, unused), y: (4, used)}`. -/
theorem scope_pop_flushes_unused_witness :
    exitScope "unused_variable" ⟨[("x", 3, false), ("y", 4, true)] :: [], []⟩ =
      ⟨[], [] ++ ([("x", 3, false), ("y", 4, true)].filter (fun e => !e.2.2)).map
        (fun e => ⟨"unused_variable", mkVarMsg e.1, e.2.1⟩)⟩ ∧
    (([("x", 3, false), ("y", 4, true)].filter (fun e => !e.2.2)).map
      (fun e => (⟨"unused_variable", mkVarMsg e.1, e.2.1⟩ : LintError))).count
        ⟨"unused_variable", mkVarMsg "x", 3⟩ = 1 :=
  ⟨(scope_pop_flushes_unused "unused_variable" [("x", 3, false), ("y", 4, true)] [] []
      (by decide)).1,
   (scope_pop_flushes_unused "unused_variable" [("x", 3, false), ("y", 4, true)] [] []
      (by decide)).2.2 "x" 3 (by decide)⟩

/-- A name occurring at the end of a scope is found by the membership
test. -/
theorem scopeHas_append_self (nm : String) (s : Scope) (ln : Nat) (u : Bool) :
    scopeHas nm (s ++ [(nm, ln, u)]) = true := by
  simp [scopeHas]

/-- C8: within one scope a name is declared at most once and the first
occurrence wins — recording the same name again is a no-op (the declaration
line stays that of the first recording), and a first recording of a
non-ignored, undeclared name appends the binding at the first line with the
used flag down. -/
theorem first_declaration_wins (nm : String) (l1 l2 : Nat) (st : VState) :
    recordVariable nm l2 (recordVariable nm l1 st) = recordVariable nm l1 st ∧
    (∀ s rest, isIgnoredName nm = false → st.scopes = s :: rest →
      scopeHas nm s = false →
      (recordVariable nm l1 st).scopes = (s ++ [(nm, l1, false)]) :: rest) := by
  constructor
  · by_cases hig : isIgnoredName nm = true
    · simp [recordVariable, hig]
    · rcases hsc : st.scopes with _ | ⟨s, rest⟩
      · simp [recordVariable, hig, hsc]
      · by_cases hs : scopeHas nm s = true
        · simp [recordVariable, hig, hsc, hs]
        · simp [recordVariable, hig, hsc, hs, scopeHas_append_self]
  · intro s rest hig hsc hs
    simp [recordVariable, hig, hsc, hs]

/-- Witness for C8: recording `x` twice in a one-scope stack keeps the first
declaration at line 2. -/
theorem first_declaration_wins_witness :
    recordVariable "x" 5 (recordVariable "x" 2 ⟨[[]], []⟩) =
      recordVariable "x" 2 ⟨[[]], []⟩ ∧
    (recordVariable "x" 2 ⟨[[]], []⟩).scopes = ([] ++ [("x", 2, false)]) :: [] :=
  ⟨(first_declaration_wins "x" 2 5 ⟨[[]], []⟩).1,
   (first_declaration_wins "x" 2 5 ⟨[[]], []⟩).2 [] [] (by decide) rfl (by decide)⟩

/-- Setting a used flag does not change the keys of a scope. -/
theorem setUsed_map_fst (nm : String) (s : Scope) :
    (setUsed nm s).map Prod.fst = s.map Prod.fst := by
  induction s with
  | nil => rfl
  | cons e rest ih =>
      obtain ⟨k, ln, u⟩ := e
      by_cases hk : k = nm <;> simp [setUsed, hk, ih]

/-- Declaring a variable preserves the traversal invariant: an ignored name
is dropped, a recorded one carries a non-ignored name. -/
theorem recordVariable_inv (rn nm : String) (ln : Nat) (st : VState)
    (h : goodVState rn st) : goodVState rn (recordVariable nm ln st) := by
  by_cases hig : isIgnoredName nm = true
  · simpa [recordVariable, hig] using h
  · rcases hsc : st.scopes with _ | ⟨s, rest⟩
    · simpa [recordVariable, hig, hsc] using h
    · by_cases hs : scopeHas nm s = true
      · simpa [recordVariable, hig, hsc, hs] using h
      · obtain ⟨h1, h2⟩ := h
        refine ⟨?_, by simpa [recordVariable, hig, hsc, hs] using h2⟩
        intro s' hs' e he
        simp only [recordVariable, hig, hsc, hs] at hs'
        rcases List.mem_cons.mp (by simpa using hs') with rfl | hmem
        · rcases List.mem_append.mp he with he1 | he2
          · exact h1 s (by rw [hsc]; exact List.mem_cons_self s rest) e he1
          · have : e = (nm, ln, false) := by simpa using he2
            rw [this]
            simpa using hig
        · exact h1 s' (by rw [hsc]; exact List.mem_cons_of_mem s hmem) e he

/-- Marking a name used preserves the key sets of every scope on the
stack. -/
theorem markUsed_good (nm : String) (scopes : List Scope)
    (h : ∀ s ∈ scopes, ∀ e ∈ s, isIgnoredName e.1 = false) :
    ∀ s ∈ markUsed nm scopes, ∀ e ∈ s, isIgnoredName e.1 = false := by
  induction scopes with
  | nil => intro s hs; cases hs
  | cons t rest ih =>
      intro s hs e he
      by_cases ht : scopeHas nm t = true
      · simp only [markUsed, ht, if_true] at hs
        rcases List.mem_cons.mp hs with rfl | hmem
        · have hkey : e.1 ∈ t.map Prod.fst := by
            rw [← setUsed_map_fst nm t]
            exact List.mem_map_of_mem Prod.fst he
          obtain ⟨f, hf, hfe⟩ := List.mem_map.mp hkey
          exact hfe ▸ h t (List.mem_cons_self t rest) f hf
        · exact h s (List.mem_cons_of_mem t hmem) e he
      · simp only [markUsed, ht, Bool.false_eq_true, if_false] at hs
        rcases List.mem_cons.mp hs with rfl | hmem
        · exact h s (List.mem_cons_self s rest) e he
        · exact ih (fun u hu => h u (List.mem_cons_of_mem t hu)) s hmem e he

/-- Pushing a fresh scope preserves the traversal invariant. -/
theorem enterScope_inv (rn : String) (st : VState) (h : goodVState rn st) :
    goodVState rn (enterScope st) := by
  refine ⟨?_, h.2⟩
  intro s hs e he
  rcases List.mem_cons.mp hs with rfl | hmem
  · cases he
  · exact h.1 s hmem e he

/-- Popping a scope preserves the traversal invariant: every flushed
diagnostic is built from a recorded binding, whose name is not ignored. -/
theorem exitScope_inv (rn : String) (st : VState) (h : goodVState rn st) :
    goodVState rn (exitScope rn st) := by
  obtain ⟨h1, h2⟩ := h
  rcases hsc : st.scopes with _ | ⟨s, rest⟩
  · simp only [exitScope, hsc]
    exact ⟨h1, h2⟩
  · refine ⟨?_, ?_⟩
    · intro s' hs' e he
      simp only [exitScope, hsc] at hs'
      exact h1 s' (by rw [hsc]; exact List.mem_cons_of_mem s hs') e he
    · intro e he
      simp only [exitScope, hsc] at he
      rcases List.mem_append.mp he with he1 | he2
      · exact h2 e he1
      · obtain ⟨f, hf, rfl⟩ := List.mem_map.mp he2
        exact ⟨f.1, f.2.1,
          h1 s (by rw [hsc]; exact List.mem_cons_self s rest) f (List.mem_of_mem_filter hf),
          rfl⟩

mutual
/-- Assignment-target handling preserves the traversal invariant. -/
theorem handleTarget_inv (rn : String) (st : VState) (n : Node)
    (h : goodVState rn st) : goodVState rn (handleTarget st n) := by
  cases n
  case name ln id ctx => exact recordVariable_inv rn id ln st h
  case tuple elts ctx => exact handleTargetList_inv rn st elts h
  case listLit elts ctx => exact handleTargetList_inv rn st elts h
  all_goals exact h

theorem handleTargetList_inv (rn : String) (st : VState) (ns : List Node)
    (h : goodVState rn st) : goodVState rn (handleTargetList st ns) := by
  cases ns with
  | nil => exact h
  | cons n rest => exact handleTargetList_inv rn _ rest (handleTarget_inv rn st n h)
end

/-- Recording a list of parameters preserves the traversal invariant. -/
theorem foldl_record_inv (rn : String) (ln : Nat) (l : List String) (st : VState)
    (h : goodVState rn st) :
    goodVState rn (l.foldl (fun s nm => recordVariable nm ln s) st) := by
  induction l generalizing st with
  | nil => exact h
  | cons nm rest ih => exact ih _ (recordVariable_inv rn nm ln st h)

/-- Recording every parameter kind preserves the traversal invariant. -/
theorem recordParams_inv (rn : String) (ln : Nat) (a : FnArgs) (st : VState)
    (h : goodVState rn st) : goodVState rn (recordParams ln a st) := by
  have h1 := foldl_record_inv rn ln a.posonlyargs st h
  have h2 := foldl_record_inv rn ln a.args _ h1
  have h3 : goodVState rn (recordOpt a.vararg ln
      (a.args.foldl (fun s nm => recordVariable nm ln s)
        (a.posonlyargs.foldl (fun s nm => recordVariable nm ln s) st))) := by
    cases hv : a.vararg with
    | some nm => exact recordVariable_inv rn nm ln _ h2
    | none => exact h2
  have h4 := foldl_record_inv rn ln a.kwonlyargs _ h3
  cases hk : a.kwarg with
  | some nm =>
      simp only [recordParams, hk]
      exact recordVariable_inv rn nm ln _ h4
  | none =>
      simp only [recordParams, hk]
      exact h4

/-- Binding comprehension iteration targets preserves the traversal
invariant. -/
theorem compTargets_inv (rn : String) (st : VState) (gens : List Comp)
    (h : goodVState rn st) : goodVState rn (compTargets st gens) := by
  induction gens generalizing st with
  | nil => exact h
  | cons c rest ih => exact ih _ (handleTarget_inv rn st c.target h)

mutual
/-- The whole traversal of `UnusedVariablesRule` preserves the invariant
that every recorded binding and every reported diagnostic carries a
non-ignored name. -/
theorem varVisit_inv (rn : String) (st : VState) (n : Node)
    (h : goodVState rn st) : goodVState rn (varVisit rn st n) := by
  cases n with
  | module body => exact varVisitList_inv rn st body h
  | imp ln names => exact h
  | impFrom ln names => exact h
  | functionDef ln args body =>
      exact exitScope_inv rn _ (varVisitList_inv rn _ body
        (recordParams_inv rn ln args _ (enterScope_inv rn st h)))
  | asyncFunctionDef ln args body =>
      exact exitScope_inv rn _ (varVisitList_inv rn _ body
        (recordParams_inv rn ln args _ (enterScope_inv rn st h)))
  | classDef ln body =>
      exact exitScope_inv rn _ (varVisitList_inv rn _ body (enterScope_inv rn st h))
  | assign targets value =>
      exact varVisit_inv rn _ value
        (varVisitList_inv rn _ targets (handleTargetList_inv rn st targets h))
  | augAssign target value =>
      exact varVisit_inv rn _ value (varVisit_inv rn _ target (handleTarget_inv rn st target h))
  | exprStmt value => exact varVisit_inv rn st value h
  | name ln id ctx =>
      cases ctx with
      | load =>
          have : varVisit rn st (.name ln id .load) =
              { st with scopes := markUsed id st.scopes } := by simp [varVisit]
          rw [this]
          exact ⟨markUsed_good id st.scopes h.1, h.2⟩
      | store => exact h
      | del => exact h
  | const ln v => exact h
  | tuple elts ctx => exact varVisitList_inv rn st elts h
  | listLit elts ctx => exact varVisitList_inv rn st elts h
  | dict keys vals => exact varVisitList_inv rn _ vals (varVisitOptList_inv rn st keys h)
  | listComp elt gens =>
      exact exitScope_inv rn _ (varVisitComps_inv rn _ gens
        (varVisit_inv rn _ elt (compTargets_inv rn _ gens (enterScope_inv rn st h))))
  | setComp elt gens =>
      exact exitScope_inv rn _ (varVisitComps_inv rn _ gens
        (varVisit_inv rn _ elt (compTargets_inv rn _ gens (enterScope_inv rn st h))))
  | dictComp key value gens =>
      exact exitScope_inv rn _ (varVisitComps_inv rn _ gens
        (varVisit_inv rn _ value (varVisit_inv rn _ key
          (compTargets_inv rn _ gens (enterScope_inv rn st h)))))
  | generatorExp elt gens =>
      exact exitScope_inv rn _ (varVisitComps_inv rn _ gens
        (varVisit_inv rn _ elt (compTargets_inv rn _ gens (enterScope_inv rn st h))))
  | call f args => exact varVisitList_inv rn _ args (varVisit_inv rn st f h)
  | other children => exact varVisitList_inv rn st children h

theorem varVisitList_inv (rn : String) (st : VState) (ns : List Node)
    (h : goodVState rn st) : goodVState rn (varVisitList rn st ns) := by
  cases ns with
  | nil => exact h
  | cons n rest => exact varVisitList_inv rn _ rest (varVisit_inv rn st n h)

theorem varVisitOptList_inv (rn : String) (st : VState) (ns : List (Option Node))
    (h : goodVState rn st) : goodVState rn (varVisitOptList rn st ns) := by
  cases ns with
  | nil => exact h
  | cons n? rest =>
      cases n? with
      | some n => exact varVisitOptList_inv rn _ rest (varVisit_inv rn st n h)
      | none => exact varVisitOptList_inv rn st rest h

theorem varVisitComps_inv (rn : String) (st : VState) (cs : List Comp)
    (h : goodVState rn st) : goodVState rn (varVisitComps rn st cs) := by
  cases cs with
  | nil => exact h
  | cons c rest =>
      obtain ⟨t, i, fs⟩ := c
      exact varVisitComps_inv rn _ rest (varVisitList_inv rn _ fs
        (varVisit_inv rn _ i (varVisit_inv rn st t h)))
end

/-- C3 (amended): in the unused-variables rule, a name starting with the
ignore marker or equal to a built-in identifier is never recorded as a
declaration — `_record_variable` is a no-op on it — and no diagnostic the
rule produces reports such a name: every unused-variable diagnostic names a
non-ignored variable. (The unused-imports rule has no such exclusion; see
the counterexample.) -/
theorem ignored_names_never_reported_by_variables_rule (rn : String)
    (errs0 : List LintError) (tree : Node)
    (h0 : ∀ e ∈ errs0, ∃ nm ln, isIgnoredName nm = false ∧
      e = (⟨rn, mkVarMsg nm, ln⟩ : LintError)) :
    (∀ nm ln st, isIgnoredName nm = true → recordVariable nm ln st = st) ∧
    (∀ e ∈ varCheck rn errs0 tree, ∃ nm ln, isIgnoredName nm = false ∧
      e = (⟨rn, mkVarMsg nm, ln⟩ : LintError)) := by
  constructor
  · intro nm ln st hig
    simp [recordVariable, hig]
  · have h1 : goodVState rn ⟨[], errs0⟩ := ⟨fun s hs => absurd hs (by simp), h0⟩
    exact (exitScope_inv rn _ (varVisit_inv rn _ tree (enterScope_inv rn _ h1))).2

/-- Counterexample to C3 as stated: on `import _foo`, `lint` emits an
unused-import diagnostic whose reported name starts with the ignore
marker — `UnusedImportsRule` never filters ignore-marker or built-in
names. -/
theorem underscore_import_is_still_flagged :
    (Linter.lint Linter.init (.ok progImportUnderscore)).1 =
      .ok [⟨"unused_import", mkImportMsg "_foo", 1⟩] ∧
    startsWithUnderscore "_foo" = true :=
  ⟨rfl, rfl⟩

/-- Witness for C3 at the program `x = 1`: the reported variable `x` is not
an ignored name. -/
theorem ignored_names_never_reported_witness :
    ∃ nm ln, isIgnoredName nm = false ∧
      (⟨"unused_variable", mkVarMsg "x", 1⟩ : LintError) =
        (⟨"unused_variable", mkVarMsg nm, ln⟩ : LintError) :=
  (ignored_names_never_reported_by_variables_rule "unused_variable" [] progAssignX
    (by intro e he; cases he)).2
    ⟨"unused_variable", mkVarMsg "x", 1⟩ (by decide)

/-- Membership in an insertion step of the stable sort. -/
theorem mem_ordInsert (x e : LintError) (l : List LintError) :
    x ∈ ordInsert e l ↔ x = e ∨ x ∈ l := by
  induction l with
  | nil => simp [ordInsert]
  | cons b t ih =>
      by_cases hle : e.line_number ≤ b.line_number
      · simp [ordInsert, hle]
      · simp only [ordInsert, hle, if_false, List.mem_cons, ih]
        tauto

/-- An insertion step of the stable sort preserves sortedness by line
number. -/
theorem ordInsert_pairwise (e : LintError) (l : List LintError)
    (h : l.Pairwise (fun a b => a.line_number ≤ b.line_number)) :
    (ordInsert e l).Pairwise (fun a b => a.line_number ≤ b.line_number) := by
  induction l with
  | nil => simp [ordInsert]
  | cons b t ih =>
      rcases List.pairwise_cons.mp h with ⟨hb, ht⟩
      by_cases hle : e.line_number ≤ b.line_number
      · have heq : ordInsert e (b :: t) = e :: b :: t := by simp [ordInsert, hle]
        rw [heq]
        refine List.pairwise_cons.mpr ⟨?_, h⟩
        intro x hx
        rcases List.mem_cons.mp hx with rfl | hx'
        · exact hle
        · exact Nat.le_trans hle (hb x hx')
      · have heq : ordInsert e (b :: t) = b :: ordInsert e t := by simp [ordInsert, hle]
        rw [heq]
        refine List.pairwise_cons.mpr ⟨?_, ih ht⟩
        intro x hx
        rcases (mem_ordInsert x e t).mp hx with rfl | hx'
        · exact Nat.le_of_lt (Nat.lt_of_not_le hle)
        · exact hb x hx'

/-- The stable sort by line number returns a list sorted ascending by line
number. -/
theorem sortByLine_pairwise (l : List LintError) :
    (sortByLine l).Pairwise (fun a b => a.line_number ≤ b.line_number) := by
  induction l with
  | nil => simp [sortByLine]
  | cons x xs ih => exact ordInsert_pairwise x (sortByLine xs) ih

/-- An insertion step places an element in front of every equal-line element
already present, so restricting to one line value commutes with it. -/
theorem filter_ordInsert (n : Nat) (e : LintError) (l : List LintError) :
    (ordInsert e l).filter (fun x => x.line_number == n) =
      if e.line_number == n then e :: l.filter (fun x => x.line_number == n)
      else l.filter (fun x => x.line_number == n) := by
  induction l with
  | nil =>
      by_cases hen : (e.line_number == n) = true <;>
        simp [ordInsert, List.filter_cons, hen]
  | cons b t ih =>
      by_cases hle : e.line_number ≤ b.line_number
      · by_cases hen : (e.line_number == n) = true <;>
          simp [ordInsert, hle, List.filter_cons, hen]
      · by_cases hen : (e.line_number == n) = true
        · have hbn : (b.line_number == n) = false := by
            have h1 : b.line_number < e.line_number := Nat.lt_of_not_le hle
            have h2 : e.line_number = n := by simpa using hen
            simp only [beq_eq_false_iff_ne, ne_eq]
            omega
          simp [ordInsert, hle, List.filter_cons, hbn, ih, hen]
        · simp [ordInsert, hle, List.filter_cons, ih, hen]

/-- The stable sort preserves, for every line value, the original relative
order of the diagnostics carrying that line. -/
theorem sortByLine_filter (l : List LintError) (n : Nat) :
    (sortByLine l).filter (fun x => x.line_number == n) =
      l.filter (fun x => x.line_number == n) := by
  induction l with
  | nil => rfl
  | cons x xs ih =>
      by_cases hxn : (x.line_number == n) = true <;>
        simp [sortByLine, filter_ordInsert, hxn, ih, List.filter_cons]

/-- C9: the diagnostic list returned by `lint` on a successfully parsed
source is sorted ascending by line number, and for each line value the
diagnostics appear in the order of the concatenation the orchestrator built
— rule-registration order (imports, variables, duplicate keys), then
discovery order within each rule — i.e. the sort is stable over that
concatenation. -/
theorem lint_output_sorted_stably (st : LinterState) (tree : Node) :
    (Linter.lint st (.ok tree)).1 = .ok (sortByLine (lintCollect st tree)) ∧
    (sortByLine (lintCollect st tree)).Pairwise
      (fun a b => a.line_number ≤ b.line_number) ∧
    (∀ n, (sortByLine (lintCollect st tree)).filter (fun e => e.line_number == n) =
      (lintCollect st tree).filter (fun e => e.line_number == n)) :=
  ⟨rfl, sortByLine_pairwise _, fun n => sortByLine_filter _ n⟩

/-- Python key equality is reflexive. -/
theorem ConstVal.peq_refl (a : ConstVal) : a.peq a = true := by
  simp [ConstVal.peq]

/-- Keys Python-equal to each other are Python-equal to the same keys. -/
theorem ConstVal.peq_congr {a b : ConstVal} (h : a.peq b = true) (c : ConstVal) :
    c.peq a = c.peq b := by
  simp only [ConstVal.peq, beq_iff_eq] at h ⊢
  rw [h]

/-- Looking up a key class after one `seen[key.value].append(...)` step:
a Python-equal insertion extends the existing group (keeping its key object)
or starts a new one; any other insertion is invisible to the lookup. -/
theorem findGroup_groupAdd (k kn : ConstVal) (ln : Nat) (gs : KeyGroups) :
    findGroup k (groupAdd kn ln gs) =
      if kn.peq k = true then
        match findGroup k gs with
        | some g => some (g.1, g.2 ++ [ln])
        | none => some (kn, [ln])
      else findGroup k gs := by
  induction gs with
  | nil =>
      by_cases hknk : kn.peq k = true <;>
        simp [groupAdd, findGroup, List.find?, hknk]
  | cons g rest ih =>
      obtain ⟨gk, ls⟩ := g
      by_cases hgkn : gk.peq kn = true
      · have hker : gk.peq k = kn.peq k := by
          simp only [ConstVal.peq, beq_iff_eq] at hgkn ⊢
          rw [hgkn]
        by_cases hknk : kn.peq k = true
        · have hgk : gk.peq k = true := by rw [hker]; exact hknk
          simp [groupAdd, findGroup, List.find?, hgkn, hknk, hgk]
        · have hgk : gk.peq k = false := by
            rw [hker]
            exact Bool.not_eq_true _ ▸ eq_false_of_ne_true hknk
          simp [groupAdd, findGroup, List.find?, hgkn, hknk, hgk]
      · by_cases hgk : gk.peq k = true
        · have hknk : kn.peq k = false := by
            by_contra hc
            have hc' : kn.peq k = true := by
              cases hv : kn.peq k
              · exact absurd hv hc
              · rfl
            have : gk.peq kn = true := by
              simp only [ConstVal.peq, beq_iff_eq] at hgk hc' ⊢
              rw [hgk, hc']
            exact absurd this hgkn
          simp [groupAdd, findGroup, List.find?, hgkn, hgk, hknk]
        · by_cases hknk : kn.peq k = true <;>
            simp [groupAdd, findGroup, List.find?, hgkn, hgk, hknk] <;>
            simpa [findGroup, hknk] using ih

/-- The scan of one dict literal only reads the constant keys into the
`seen` table: its group component is the `groupAdd` fold over the
literal's constant-key entries, whatever errors the value recursion
produces. -/
theorem dupLoop_snd (rn : String) :
    ∀ (ks : List (Option Node)) (vs : List Node) (errs : List LintError)
      (seen : KeyGroups),
      (dupLoop rn errs seen ks vs).2 =
        (constEntries ks vs).foldl (fun gs e => groupAdd e.1 e.2 gs) seen := by
  intro ks
  induction ks with
  | nil => intro vs errs seen; simp [dupLoop, constEntries]
  | cons k? ks ih =>
      intro vs errs seen
      cases vs with
      | nil => simp [dupLoop, constEntries]
      | cons v vs' =>
          cases k? with
          | none => simp [dupLoop, constEntries, ih]
          | some kn => cases kn <;> simp [dupLoop, constEntries, ih]

/-- Folding further entries onto a table that already has a group for the
key class appends exactly the Python-equal entries' lines, in encounter
order, keeping the group's key object. -/
theorem findGroup_fold_some (k : ConstVal) :
    ∀ (entries : List (ConstVal × Nat)) (seen : KeyGroups) (cv : ConstVal)
      (ls : List Nat),
      findGroup k seen = some (cv, ls) →
      findGroup k (entries.foldl (fun gs e => groupAdd e.1 e.2 gs) seen) =
        some (cv, ls ++ (entries.filter (fun e => e.1.peq k)).map Prod.snd) := by
  intro entries
  induction entries with
  | nil => intro seen cv ls h; simpa using h
  | cons e rest ih =>
      intro seen cv ls h
      by_cases hek : e.1.peq k = true
      · have hstep : findGroup k (groupAdd e.1 e.2 seen) = some (cv, ls ++ [e.2]) := by
          rw [findGroup_groupAdd, if_pos hek, h]
        have := ih (groupAdd e.1 e.2 seen) cv (ls ++ [e.2]) hstep
        simpa [List.foldl_cons, List.filter_cons, hek, List.append_assoc] using this
      · have hstep : findGroup k (groupAdd e.1 e.2 seen) = some (cv, ls) := by
          rw [findGroup_groupAdd, if_neg (by simpa using hek), h]
        have := ih (groupAdd e.1 e.2 seen) cv ls hstep
        simpa [List.foldl_cons, List.filter_cons, hek] using this

/-- Folding the entries of a literal onto a table with no group for the key
class creates exactly one group for it: keyed by the first Python-equal
constant key's value and carrying all Python-equal entries' lines in
encounter order — or no group at all when no entry matches. -/
theorem findGroup_fold_none (k : ConstVal) :
    ∀ (entries : List (ConstVal × Nat)) (seen : KeyGroups),
      findGroup k seen = none →
      findGroup k (entries.foldl (fun gs e => groupAdd e.1 e.2 gs) seen) =
        (entries.find? (fun e => e.1.peq k)).map
          (fun e0 => (e0.1, (entries.filter (fun e => e.1.peq k)).map Prod.snd)) := by
  intro entries
  induction entries with
  | nil => intro seen h; simpa using h
  | cons e rest ih =>
      intro seen h
      by_cases hek : e.1.peq k = true
      · have hstep : findGroup k (groupAdd e.1 e.2 seen) = some (e.1, [e.2]) := by
          rw [findGroup_groupAdd, if_pos hek, h]
        have := findGroup_fold_some k rest (groupAdd e.1 e.2 seen) e.1 [e.2] hstep
        simpa [List.foldl_cons, List.filter_cons, List.find?_cons, hek] using this
      · have hstep : findGroup k (groupAdd e.1 e.2 seen) = none := by
          rw [findGroup_groupAdd, if_neg (by simpa using hek), h]
        have := ih (groupAdd e.1 e.2 seen) hstep
        simpa [List.foldl_cons, List.filter_cons, List.find?_cons, hek] using this

/-- One `seen` insertion extends the key classes present in the table by
exactly the inserted key's class. -/
theorem any_groupAdd (k kn : ConstVal) (ln : Nat) (gs : KeyGroups) :
    (groupAdd kn ln gs).any (fun g => g.1.peq k) =
      (gs.any (fun g => g.1.peq k) || kn.peq k) := by
  induction gs with
  | nil => simp [groupAdd]
  | cons g rest ih =>
      obtain ⟨gk, ls⟩ := g
      by_cases hgkn : gk.peq kn = true
      · have hker : gk.peq k = kn.peq k := by
          simp only [ConstVal.peq, beq_iff_eq] at hgkn ⊢
          rw [hgkn]
        cases hv : kn.peq k <;> simp [groupAdd, hgkn, hker, hv]
      · simp [groupAdd, hgkn, ih, Bool.or_assoc]

/-- One `seen` insertion never duplicates a group: the count of groups in
the inserted key's class grows only when the class was absent. -/
theorem countP_groupAdd (k kn : ConstVal) (ln : Nat) (gs : KeyGroups) :
    (groupAdd kn ln gs).countP (fun g => g.1.peq k) =
      gs.countP (fun g => g.1.peq k) +
        (if gs.any (fun g => g.1.peq kn) = false ∧ kn.peq k = true then 1 else 0) := by
  induction gs with
  | nil =>
      by_cases hknk : kn.peq k = true <;>
        simp [groupAdd, List.countP_cons, hknk]
  | cons g rest ih =>
      obtain ⟨gk, ls⟩ := g
      by_cases hgkn : gk.peq kn = true
      · simp [groupAdd, List.countP_cons, hgkn]
      · have hgkn' : gk.peq kn = false := by simpa using hgkn
        simp only [groupAdd, hgkn', Bool.false_eq_true, if_false, List.countP_cons, ih,
          List.any_cons, Bool.false_or]
        by_cases hgk : gk.peq k = true <;> (simp [hgk]; try omega)

/-- Folding a literal's entries keeps at most one group per key class, and
produces exactly one precisely when the class is present in the table or
among the entries. -/
theorem countP_fold (k : ConstVal) :
    ∀ (entries : List (ConstVal × Nat)) (seen : KeyGroups),
      seen.countP (fun g => g.1.peq k) ≤ 1 →
      (entries.foldl (fun gs e => groupAdd e.1 e.2 gs) seen).countP
          (fun g => g.1.peq k) =
        if seen.any (fun g => g.1.peq k) || entries.any (fun e => e.1.peq k)
          then 1 else 0 := by
  intro entries
  induction entries with
  | nil =>
      intro seen hle
      by_cases hany : seen.any (fun g => g.1.peq k) = true
      · have hpos : 0 < seen.countP (fun g => g.1.peq k) :=
          List.countP_pos_iff.mpr (by simpa [List.any_eq_true] using hany)
        simp only [List.foldl_nil, List.any_nil, Bool.or_false, hany, if_true]
        omega
      · have hz : seen.countP (fun g => g.1.peq k) = 0 := by
          refine List.countP_eq_zero.mpr ?_
          intro g hg hp
          exact hany (List.any_eq_true.mpr ⟨g, hg, hp⟩)
        have hany' : seen.any (fun g => g.1.peq k) = false := by simpa using hany
        simp [hany', hz]
  | cons e rest ih =>
      intro seen hle
      by_cases hek : e.1.peq k = true
      · have hfe : (fun g : ConstVal × List Nat => g.1.peq e.1) =
            (fun g : ConstVal × List Nat => g.1.peq k) :=
          funext fun g => ConstVal.peq_congr hek g.1
        have hcount : (groupAdd e.1 e.2 seen).countP (fun g => g.1.peq k) ≤ 1 := by
          rw [countP_groupAdd, hfe]
          by_cases hany : seen.any (fun g => g.1.peq k) = true
          · simpa [hany] using hle
          · have hz : seen.countP (fun g => g.1.peq k) = 0 := by
              refine List.countP_eq_zero.mpr ?_
              intro g hg hp
              exact hany (List.any_eq_true.mpr ⟨g, hg, hp⟩)
            have hany' : seen.any (fun g => g.1.peq k) = false := by simpa using hany
            simp [hany', hz, hek]
        have hrec := ih (groupAdd e.1 e.2 seen) hcount
        rw [List.foldl_cons, hrec, any_groupAdd, List.any_cons, Bool.or_assoc]
      · have hek' : e.1.peq k = false := by simpa using hek
        have hcount : (groupAdd e.1 e.2 seen).countP (fun g => g.1.peq k) ≤ 1 := by
          rw [countP_groupAdd]
          simpa [hek'] using hle
        have hrec := ih (groupAdd e.1 e.2 seen) hcount
        rw [List.foldl_cons, hrec, any_groupAdd, List.any_cons, Bool.or_assoc]

/-- C2 (amended): for every mapping literal the duplicate-key rule actually
visits — the traversal reaches a literal through the generic visit of
non-dict ancestors or as the direct dict-literal value of a visited literal,
but `visit_Dict` does not call `generic_visit`, so a literal nested deeper
inside another literal's key or non-dict value is skipped — each
constant-literal key value occurring in two or more directly written entries
yields exactly one diagnostic: the `seen` table holds exactly one group per
key class, keyed by the first occurrence's value, listing every occurrence's
line in encounter order, and the emitted diagnostic carries the message
`Key "<key>" has been repeated on lines <L1, L2, ...>` at the first
occurrence's line. Computed keys never participate, and a directly nested
dict-literal value is grouped wholly independently (its diagnostics are
emitted by its own scan, before this literal's own). -/
theorem dup_dict_per_literal_grouping (rn : String) (keys : List (Option Node))
    (vals : List Node) (k : ConstVal)
    (hk : constKeyLines k keys vals ≠ []) :
    dupVisit rn [] (.dict keys vals) =
      (dupLoop rn [] [] keys vals).1 ++ groupErrors rn (dupLoop rn [] [] keys vals).2 ∧
    ∃ cv, firstConstKeyVal k keys vals = some cv ∧ cv.peq k = true ∧
      findGroup k (dupLoop rn [] [] keys vals).2 =
        some (cv, constKeyLines k keys vals) ∧
      ((dupLoop rn [] [] keys vals).2).countP (fun g => g.1.peq k) = 1 ∧
      (2 ≤ (constKeyLines k keys vals).length →
        (⟨rn, mkDupMsg cv (constKeyLines k keys vals),
          (constKeyLines k keys vals).headD 0⟩ : LintError) ∈
          groupErrors rn (dupLoop rn [] [] keys vals).2) := by
  refine ⟨rfl, ?_⟩
  have hfil : (constEntries keys vals).filter (fun e => e.1.peq k) ≠ [] := by
    intro h
    exact hk (by simp [constKeyLines, h])
  obtain ⟨y, hy⟩ := List.exists_mem_of_ne_nil _ hfil
  obtain ⟨hymem, hyp⟩ := List.mem_filter.mp hy
  obtain ⟨e0, he0⟩ : ∃ e0, (constEntries keys vals).find? (fun e => e.1.peq k) = some e0 :=
    Option.isSome_iff_exists.mp (List.find?_isSome.mpr ⟨y, hymem, hyp⟩)
  have hp0raw := List.find?_some he0
  have hp0 : e0.1.peq k = true := by simpa using hp0raw
  have hgroups : (dupLoop rn [] [] keys vals).2 =
      (constEntries keys vals).foldl (fun gs e => groupAdd e.1 e.2 gs) [] :=
    dupLoop_snd rn keys vals [] []
  have hfind : findGroup k (dupLoop rn [] [] keys vals).2 =
      some (e0.1, constKeyLines k keys vals) := by
    rw [hgroups, findGroup_fold_none k (constEntries keys vals) [] rfl, he0]
    rfl
  refine ⟨e0.1, ?_, hp0, hfind, ?_, ?_⟩
  · simp [firstConstKeyVal, he0]
  · rw [hgroups, countP_fold k (constEntries keys vals) [] (by simp)]
    have hany : (constEntries keys vals).any (fun e => e.1.peq k) = true :=
      List.any_eq_true.mpr ⟨y, hymem, hyp⟩
    simp [hany]
  · intro hlen
    have hmem : (e0.1, constKeyLines k keys vals) ∈ (dupLoop rn [] [] keys vals).2 :=
      List.mem_of_find?_eq_some hfind
    refine List.mem_map.mpr ⟨(e0.1, constKeyLines k keys vals), ?_, rfl⟩
    refine List.mem_filter.mpr ⟨hmem, ?_⟩
    simp only [decide_eq_true_eq]
    omega

/-- Counterexample to C2 as stated: the tree `{1: [{2: 0, 2: 1}]}` contains
a mapping literal (the inner one, directly visible in the program term)
whose constant key `2` is written on lines 2 and 3, yet `lint` returns no
diagnostic at all — `visit_Dict` never calls `generic_visit`, so a literal
nested inside a non-dict value of another literal is never scanned. -/
theorem nested_literal_in_list_value_unreported :
    (Linter.lint Linter.init (.ok progNestedDictInList)).1 = .ok [] ∧
    dupCheck "duplicate_dict_keys" [] progNestedDictInList = [] ∧
    constKeyLines (.int 2) innerDictKeys innerDictVals = [2, 3] :=
  ⟨rfl, rfl, rfl⟩

/-- Witness for C2 on the literal `{2: 0, 2: 1}` with key class `2`. -/
theorem dup_dict_per_literal_grouping_witness :
    dupVisit "duplicate_dict_keys" [] (.dict innerDictKeys innerDictVals) =
      (dupLoop "duplicate_dict_keys" [] [] innerDictKeys innerDictVals).1 ++
        groupErrors "duplicate_dict_keys"
          (dupLoop "duplicate_dict_keys" [] [] innerDictKeys innerDictVals).2 ∧
    ∃ cv, firstConstKeyVal (.int 2) innerDictKeys innerDictVals = some cv ∧
      cv.peq (.int 2) = true ∧
      findGroup (.int 2) (dupLoop "duplicate_dict_keys" [] [] innerDictKeys innerDictVals).2 =
        some (cv, constKeyLines (.int 2) innerDictKeys innerDictVals) ∧
      ((dupLoop "duplicate_dict_keys" [] [] innerDictKeys innerDictVals).2).countP
        (fun g => g.1.peq (.int 2)) = 1 ∧
      (2 ≤ (constKeyLines (.int 2) innerDictKeys innerDictVals).length →
        (⟨"duplicate_dict_keys",
          mkDupMsg cv (constKeyLines (.int 2) innerDictKeys innerDictVals),
          (constKeyLines (.int 2) innerDictKeys innerDictVals).headD 0⟩ : LintError) ∈
          groupErrors "duplicate_dict_keys"
            (dupLoop "duplicate_dict_keys" [] [] innerDictKeys innerDictVals).2) :=
  dup_dict_per_literal_grouping "duplicate_dict_keys" innerDictKeys innerDictVals
    (.int 2) (by decide)

end PyLinter
